import Mathlib

/-!
Verification of the AI-Travel-Planner application (`src/app.py`).

The Python source is shallowly embedded below.  Pure helper functions of the
app (`get_maps_url`, `get_places`, `send_whatsapp`, `format_places`, the
Streamlit submit handler) become Lean functions; the I/O they perform
(HTTP responses of the places API, the LLM response, the per-send outcome of
the Twilio client) is passed in explicitly as data.  The behaviour of the two
CPython standard-library functions the app relies on, `urllib.parse.quote_plus`
and `textwrap.wrap`, is modelled from the CPython sources (see the doc
comments on the corresponding definitions for the modelled scope).
Python strings are modelled as `List Char` / `String` (sequences of unicode
scalar values), machine integers do not occur.
-/

/- ========================================================================
   § urllib.parse.quote_plus (CPython Lib/urllib/parse.py)
   ======================================================================== -/

/-- The characters CPython's `urllib.parse` never quotes
(`_ALWAYS_SAFE`): ASCII letters, digits, and `_.-~`. -/
def alwaysSafe (c : Char) : Bool :=
  decide (('A' ≤ c ∧ c ≤ 'Z') ∨ ('a' ≤ c ∧ c ≤ 'z') ∨ ('0' ≤ c ∧ c ≤ '9') ∨
    c = '_' ∨ c = '.' ∨ c = '-' ∨ c = '~')

/-- Upper-case hexadecimal digit, as used by `urllib.parse.quote`. -/
def hexDigit (n : Nat) : Char :=
  if n < 10 then Char.ofNat (48 + n) else Char.ofNat (55 + n)

/-- UTF-8 encoding of a unicode scalar value (Python `str.encode('utf-8')`,
byte values as `Nat`). -/
def utf8Bytes (c : Char) : List Nat :=
  let n := c.toNat
  if n < 128 then [n]
  else if n < 2048 then [192 + n / 64, 128 + n % 64]
  else if n < 65536 then [224 + n / 4096, 128 + n / 64 % 64, 128 + n % 64]
  else [240 + n / 262144, 128 + n / 4096 % 64, 128 + n / 64 % 64, 128 + n % 64]

/-- `%XX` percent-escape of one byte, upper-case hex (CPython `Quoter`). -/
def pctByte (b : Nat) : List Char := ['%', hexDigit (b / 16), hexDigit (b % 16)]

/-- Quoting of a single character: kept verbatim when always-safe or in the
caller's `safe` set, otherwise each UTF-8 byte is percent-escaped. -/
def quoteChar (safe : List Char) (c : Char) : List Char :=
  if alwaysSafe c || safe.contains c then [c]
  else ((utf8Bytes c).map pctByte).flatten

/-- CPython `urllib.parse.quote(string, safe)` for a `str` argument:
character-wise quoting.  (ASCII `safe` sets only, which is all the app uses.) -/
def pyQuote (safe : List Char) (l : List Char) : List Char :=
  (l.map (quoteChar safe)).flatten

/-- CPython `urllib.parse.quote_plus(string)` with default arguments:
if the string contains a space, quote with space marked safe and then
replace every space by `+`; otherwise plain `quote` with empty `safe`
(the `safe='/'` default of `quote` is overridden by `quote_plus`). -/
def quote_plus (l : List Char) : List Char :=
  if l.contains ' ' then
    (pyQuote [' '] l).map (fun c => if c = ' ' then '+' else c)
  else pyQuote [] l

/- ========================================================================
   § MapLinkBuilder: app.py `get_maps_url` (lines 32-35)
   ======================================================================== -/

/-- `app.py` lines 32-35:
```
def get_maps_url(name, address=None):
    query = quote_plus(f"{name} {address}" if address else name)
    return f"https://www.google.com/maps/search/?api=1&query={query}"
```
`if address` is Python truthiness: `None` and `""` are falsy. -/
def get_maps_url (name : String) (address : Option String) : String :=
  let queryText :=
    match address with
    | some a => if a ≠ "" then name ++ " " ++ a else name
    | none => name
  "https://www.google.com/maps/search/?api=1&query=" ++
    String.mk (quote_plus queryText.data)

/-- Spec-side definition for the refinement claim C6, following the claim's
words: the fixed template URL followed by the percent-encoding
(`quote_plus`) of `"<name> <address>"` when the address is present and
non-empty, else of `"<name>"` alone. -/
def mapUrlSpec (name : String) (address : Option String) : String :=
  let q : String :=
    match address with
    | some a => if a ≠ "" then name ++ " " ++ a else name
    | none => name
  "https://www.google.com/maps/search/?api=1&query=" ++
    String.mk (quote_plus q.data)

/- ========================================================================
   § PlaceLookup: app.py `get_places` (lines 52-90)
   ======================================================================== -/

/-- A rating value as stored in the place dict: either the JSON number
returned by the places API (JSON numbers are decimal, modelled as `ℚ`)
or the default string `"N/A"` from `place.get("rating", "N/A")`. -/
inductive Rating where
  | num (r : ℚ)
  | na
deriving DecidableEq

/-- One raw result entry of the places text-search response
(`r.json().get("results", [])`).  `formatted_address` and `rating` model
`place.get(...)` with a default, i.e. possibly absent fields.  The `name`
field is read by the code as `place.get("name")`; the places API includes a
name in every result, and no claim concerns an absent name, so it is
modelled as always present. -/
structure RawPlace where
  name : String
  formatted_address : Option String
  rating : Option ℚ
deriving DecidableEq

/-- The dict appended to `places` by `get_places`. -/
structure Place where
  name : String
  address : String
  rating : Rating
  maps_url : String
deriving DecidableEq

/-- The per-result body of the `for place in results[:top_n]` loop
(`app.py` lines 65-75). -/
def placeOfRaw (place : RawPlace) : Place :=
  let name := place.name
  let address := place.formatted_address.getD "No address available"
  let rating : Rating :=
    match place.rating with
    | some r => Rating.num r
    | none => Rating.na
  ⟨name, address, rating, get_maps_url name (some address)⟩

/-- `app.py` lines 52-90, with the HTTP round trip made explicit: `results`
is the parsed `r.json().get("results", [])` for the query
`f"{place_type} in {destination}"`.  `if results:` is Python truthiness of a
list (non-empty).  The source gives `top_n` the default value 5; call sites
below pass 5 explicitly. -/
def get_places (results : List RawPlace) (destination place_type : String)
    (top_n : Nat) : List Place :=
  if results.isEmpty then
    -- Fallback if no results returned (lines 77-88)
    (List.range top_n).map (fun i =>
      let name := place_type ++ " " ++ toString (i + 1)
      ⟨name, "Not available", Rating.na, get_maps_url name (some destination)⟩)
  else
    (results.take top_n).map placeOfRaw

/- ========================================================================
   § Claims C1, C5, C6, C9
   ======================================================================== -/

/-- C1, counterexample: a search returning exactly one raw result with
`top_n = 5` yields one `Place`, not five — `results[:top_n]` does not pad. -/
theorem C1_counterexample :
    (get_places [⟨"Lonely Inn", some "Street 1", none⟩] "Goa" "hotels" 5).length = 1 ∧
    (1 : Nat) ≠ 5 := by
  constructor
  · simp [get_places]
  · decide

/-- C1 (amended): `get_places` returns exactly `top_n` places when the
backing search returned no results (placeholders) and `min k top_n` places
when it returned `k ≥ 1` raw results; in particular exactly `top_n` when
`k ≥ top_n`, but only `k` when `1 ≤ k < top_n`. -/
theorem C1_theorem (results : List RawPlace) (destination place_type : String)
    (top_n : Nat) :
    (get_places results destination place_type top_n).length =
      if results.isEmpty then top_n else min top_n results.length := by
  by_cases h : results.isEmpty <;>
    simp [get_places, h, List.length_take]

/-- C5, counterexample: on an empty result set the synthesized placeholder
Places carry the address string `"Not available"` (capital N), not the
`"not available"` stated by the claim. -/
theorem C5_counterexample :
    (get_places ([] : List RawPlace) "Paris" "restaurants" 5).head?.map Place.address =
      some "Not available" ∧
    ("Not available" : String) ≠ "not available" := by
  constructor
  · simp [get_places, List.range_succ_eq_map]
  · decide

/-- C5 (amended): when the places search returns an empty result set,
`get_places` synthesizes `top_n` placeholder Places; the `i`-th (0-based) is
named `"<category> (i+1)"`, has address `"Not available"`, rating `"N/A"`,
and map URL built by `get_maps_url` from the placeholder name together with
the destination. -/
theorem C5_theorem (destination place_type : String) (top_n i : Nat)
    (h : i < top_n) :
    (get_places [] destination place_type top_n)[i]? =
      some ⟨place_type ++ " " ++ toString (i + 1), "Not available", Rating.na,
        get_maps_url (place_type ++ " " ++ toString (i + 1)) (some destination)⟩ ∧
    (get_places [] destination place_type top_n).length = top_n := by
  refine ⟨?_, by simp [get_places]⟩
  simp [get_places, List.getElem?_range, h]

/-- C5, witness for the amended theorem at `top_n = 5`, `i = 0`. -/
theorem C5_witness :
    (get_places [] "Rome" "hotels" 5)[0]? =
      some ⟨"hotels " ++ toString 1, "Not available", Rating.na,
        get_maps_url ("hotels " ++ toString 1) (some "Rome")⟩ ∧
    (get_places [] "Rome" "hotels" 5).length = 5 := by
  have h := C5_theorem "Rome" "hotels" 5 0 (by decide)
  simpa using h

/-- C6: `get_maps_url` returns the fixed template URL followed by the
percent-encoding of `"<name> <address>"` when the address is present and
non-empty, else of `"<name>"` alone (the spec-side `mapUrlSpec`), and the
concrete example from the spec evaluates to the expected URL. -/
theorem C6_theorem :
    (∀ (name : String) (address : Option String),
      get_maps_url name address = mapUrlSpec name address) ∧
    get_maps_url "Taj Hotel" (some "MG Road, Pune") =
      "https://www.google.com/maps/search/?api=1&query=Taj+Hotel+MG+Road%2C+Pune" := by
  constructor
  · intro name address
    rfl
  · decide

/-- C9, counterexample: a raw entry missing its address field yields the
sentinel `"No address available"` (capital N), not the `"no address
available"` stated by the claim. -/
theorem C9_counterexample :
    (get_places [⟨"Cafe Y", none, some 4⟩] "Pune" "cafes" 5).head?.map Place.address =
      some "No address available" ∧
    ("No address available" : String) ≠ "no address available" := by
  constructor
  · simp [get_places, placeOfRaw]
  · decide

/-- C9 (amended): every raw entry among the first `top_n` of a successful
(non-empty) search result contributes `placeOfRaw raw` to the output of
`get_places`; a missing address field yields the sentinel
`"No address available"` and a missing rating field yields `"N/A"`. -/
theorem C9_theorem (results : List RawPlace) (destination place_type : String)
    (top_n : Nat) (raw : RawPlace) (hmem : raw ∈ results.take top_n) :
    placeOfRaw raw ∈ get_places results destination place_type top_n ∧
    (raw.formatted_address = none →
      (placeOfRaw raw).address = "No address available") ∧
    (raw.rating = none → (placeOfRaw raw).rating = Rating.na) := by
  have hne : results ≠ [] := by
    intro h
    subst h
    simp at hmem
  refine ⟨?_, ?_, ?_⟩
  · have hempty : results.isEmpty = false := by
      simpa [List.isEmpty_iff] using hne
    simp only [get_places, hempty, Bool.false_eq_true, if_false]
    exact List.mem_map_of_mem placeOfRaw hmem
  · intro h
    simp [placeOfRaw, h]
  · intro h
    simp [placeOfRaw, h]

/-- C9, witness for the amended theorem at a concrete raw entry missing both
its address and its rating. -/
theorem C9_witness :
    placeOfRaw ⟨"Cafe X", none, none⟩ ∈
      get_places [⟨"Cafe X", none, none⟩] "Pune" "restaurants" 5 ∧
    (placeOfRaw ⟨"Cafe X", none, none⟩).address = "No address available" ∧
    (placeOfRaw ⟨"Cafe X", none, none⟩).rating = Rating.na := by
  have h := C9_theorem [⟨"Cafe X", none, none⟩] "Pune" "restaurants" 5
    ⟨"Cafe X", none, none⟩ (by simp)
  exact ⟨h.1, h.2.1 rfl, h.2.2 rfl⟩

/- ========================================================================
   § textwrap.wrap (CPython Lib/textwrap.py, default options)

   `send_whatsapp` calls `textwrap.wrap(message, 1500)`.  The model below
   follows `TextWrapper` with its default options (`expand_tabs=True`,
   `replace_whitespace=True`, `drop_whitespace=True`, `break_long_words=True`,
   `break_on_hyphens=True`, `max_lines=None`, empty indents).  The chunking
   regex `wordsep_re` is modelled as the alternating maximal runs of spaces
   and non-spaces of the whitespace-normalised text (`splitRuns`).  This is
   exactly CPython's chunking for every hyphen-free text: the word branch of
   `wordsep_re` is a lazy run of arbitrary non-whitespace characters, and
   each of its subdivision alternatives (the hyphenated-word split and the
   two em-dash branches) consumes or looks ahead at a literal '-', so in the
   absence of hyphens each maximal non-space run is matched whole up to the
   next whitespace or the end of the text.  On text with hyphens CPython
   splits further (for example 'ab-cd' chunks as 'ab-', 'cd', letting a line
   break inside the word with no whitespace dropped); accordingly the
   round-trip theorem for claim C3 excludes '-' from its words, and every
   concrete input evaluated below is hyphen-free.  The hyphen handling of
   `_handle_long_word` itself is modelled in full, and `_wrap_chunks` is
   modelled for arbitrary chunk lists, so the width bound of claim C7 does
   not depend on chunk boundaries.
   ======================================================================== -/

/-- Unicode whitespace as recognised by Python's `str.strip()` /
`str.isspace()` (used by textwrap's `chunk.strip() == ''` tests). -/
def pyIsSpace (c : Char) : Bool :=
  let n := c.toNat
  decide ((9 ≤ n ∧ n ≤ 13) ∨ (28 ≤ n ∧ n ≤ 31) ∨ n = 32 ∨ n = 133 ∨ n = 160 ∨
    n = 5760 ∨ (8192 ≤ n ∧ n ≤ 8202) ∨ n = 8232 ∨ n = 8233 ∨ n = 8239 ∨
    n = 8287 ∨ n = 12288)

/-- The six characters of `textwrap._whitespace` (`'\t\n\x0b\x0c\r '`),
the keys of `unicode_whitespace_trans`. -/
def twWS (c : Char) : Bool :=
  c == ' ' || c == Char.ofNat 9 || c == Char.ofNat 10 || c == Char.ofNat 11 ||
  c == Char.ofNat 12 || c == Char.ofNat 13

/-- `str.expandtabs(8)` (CPython `unicode_expandtabs`): a tab becomes
`8 - col % 8` spaces; `\n` and `\r` reset the column; other characters
advance it by one. -/
def expandtabsGo (tabsize : Nat) : Nat → List Char → List Char
  | _, [] => []
  | col, c :: cs =>
    if c = Char.ofNat 9 then
      List.replicate (tabsize - col % tabsize) ' ' ++
        expandtabsGo tabsize (col + (tabsize - col % tabsize)) cs
    else if c = Char.ofNat 10 ∨ c = Char.ofNat 13 then
      c :: expandtabsGo tabsize 0 cs
    else
      c :: expandtabsGo tabsize (col + 1) cs

/-- `TextWrapper._munge_whitespace`: `expandtabs` followed by translating
each of the six textwrap whitespace characters to a space. -/
def mungeWhitespace (l : List Char) : List Char :=
  (expandtabsGo 8 0 l).map (fun c => if twWS c then ' ' else c)

/-- Two characters lie in the same chunk class of the munged text:
both are spaces or both are non-spaces. -/
def sameSp (c x : Char) : Bool := (x == ' ') == (c == ' ')

/-- Fuel-driven worker for `splitRuns` (fuel bounds the number of runs). -/
def splitRunsFuel : Nat → List Char → List (List Char)
  | 0, _ => []
  | _, [] => []
  | fuel + 1, c :: cs =>
    (c :: cs).takeWhile (sameSp c) ::
      splitRunsFuel fuel ((c :: cs).dropWhile (sameSp c))

/-- `TextWrapper._split` on munged text: the alternating maximal runs of
spaces and non-spaces, in order (empty strings filtered, as in CPython).
Equal to CPython's `wordsep_re`-based split on every hyphen-free text —
all of `wordsep_re`'s word-subdividing branches require a '-' (see the
section comment); hyphenated words are chunked more finely by CPython. -/
def splitRuns (l : List Char) : List (List Char) := splitRunsFuel l.length l

/-- Total length of a list of chunks (`sum(map(len, cur_line))`). -/
def sumLen (ls : List (List Char)) : Nat := (ls.map List.length).sum

/-- Termination measure for the `while chunks` loop of `_wrap_chunks`:
total chunk length plus chunk count. -/
def muChunks (chunks : List (List Char)) : Nat := sumLen chunks + chunks.length

/-- The greedy inner loop of `_wrap_chunks`: starting from line length
`curLen`, move chunks onto the current line while they fit in `width`.
Returns (chunks put on the line, remaining chunks). -/
def fillLine (width : Nat) : Nat → List (List Char) → List (List Char) × List (List Char)
  | _, [] => ([], [])
  | curLen, c :: rest =>
    if curLen + c.length ≤ width then
      let p := fillLine width (curLen + c.length) rest
      (c :: p.1, p.2)
    else ([], c :: rest)

/-- `chunk.rfind('-', 0, space_left)`: the largest index `i < space_left`
with `chunk[i] = '-'`, as an `Option`. -/
def lastHyphenLt (bound : Nat) (chunk : List Char) : Option Nat :=
  (List.range (min bound chunk.length)).reverse.find?
    (fun i => chunk.getD i ' ' == '-')

/-- `space_left` of `TextWrapper._handle_long_word`:
`1 if self.width < 1 else width - cur_len`. -/
def hlwSpaceLeft (width curLen : Nat) : Nat :=
  if width < 1 then 1 else width - curLen

/-- The cut position chosen by `TextWrapper._handle_long_word` with
`break_long_words=True` and `break_on_hyphens=True`: the free space on the
current line, or just after the last usable hyphen before it. -/
def hlwEnd (width curLen : Nat) (chunk : List Char) : Nat :=
  if hlwSpaceLeft width curLen < chunk.length then
    match lastHyphenLt (hlwSpaceLeft width curLen) chunk with
    | some i =>
      if 0 < i && (chunk.take i).any (fun c => !(c == '-')) then i + 1
      else hlwSpaceLeft width curLen
    | none => hlwSpaceLeft width curLen
  else hlwSpaceLeft width curLen

/-- `chunk.strip() == ''`: the chunk consists of Python whitespace only. -/
def wsChunk (l : List Char) : Bool := l.all pyIsSpace

/-- The trailing-whitespace drop of `_wrap_chunks`: if the last chunk of the
line strips to the empty string, delete it (one chunk at most). -/
def dropTrailWs (l : List (List Char)) : List (List Char) :=
  match l.getLast? with
  | some last => if wsChunk last then l.dropLast else l
  | none => l

/-- Greedy fill followed by the long-word handling of `_wrap_chunks`:
`_handle_long_word` fires when chunks remain and the next one is longer
than the full width. -/
def wrapStepFill (width : Nat) (chunks1 : List (List Char)) :
    List (List Char) × List (List Char) :=
  let p := fillLine width 0 chunks1
  match p.2 with
  | r :: rs =>
    if width < r.length then
      (p.1 ++ [r.take (hlwEnd width (sumLen p.1) r)],
        r.drop (hlwEnd width (sumLen p.1) r) :: rs)
    else p
  | [] => p

/-- One iteration of the `while chunks` loop of `_wrap_chunks` after the
leading-whitespace drop: greedy fill, long-word handling, trailing
whitespace drop.  Returns (emitted line, if any; remaining chunks). -/
def wrapStepCore (width : Nat) (chunks1 : List (List Char)) :
    Option (List Char) × List (List Char) :=
  match chunks1 with
  | [] => (none, [])
  | d :: ds =>
    let q := wrapStepFill width (d :: ds)
    let cur := dropTrailWs q.1
    (if cur.isEmpty then none else some cur.flatten, q.2)

/-- One full iteration of the `while chunks` loop: drop a leading
whitespace chunk unless this is the very beginning of the text
(`first` tracks `lines == []`), then `wrapStepCore`. -/
def wrapStep (width : Nat) (first : Bool) (chunks : List (List Char)) :
    Option (List Char) × List (List Char) :=
  match chunks with
  | [] => (none, [])
  | c :: cs => wrapStepCore width (if !first && wsChunk c then cs else c :: cs)

/-- Fuel-driven worker for `_wrap_chunks` (fuel bounds the iteration count
by total chunk length plus chunk count). -/
def wrapChunksFuel (width : Nat) : Nat → Bool → List (List Char) → List (List Char)
  | 0, _, _ => []
  | fuel + 1, first, chunks =>
    match chunks with
    | [] => []
    | c :: cs =>
      let s := wrapStep width first (c :: cs)
      match s.1 with
      | some line => line :: wrapChunksFuel width fuel false s.2
      | none => wrapChunksFuel width fuel first s.2

/-- `TextWrapper._wrap_chunks` (default options, `width > 0` at the call
site): the emitted lines, oldest first. -/
def wrapChunksGo (width : Nat) (first : Bool) (chunks : List (List Char)) :
    List (List Char) :=
  wrapChunksFuel width (muChunks chunks) first chunks

/-- `textwrap.wrap` on a character list: munge, split into chunks, wrap. -/
def wrapList (width : Nat) (text : List Char) : List (List Char) :=
  wrapChunksGo width true (splitRuns (mungeWhitespace text))

/-- `textwrap.wrap(message, width)` with default options. -/
def textwrap_wrap (message : String) (width : Nat) : List String :=
  (wrapList width message.data).map (fun l => String.mk l)

/- ========================================================================
   § MessageDispatcher: app.py `send_whatsapp` (lines 92-104)
   ======================================================================== -/

/-- The chunk-sending loop of `send_whatsapp` inside its `try`.
`outcome i` is the result of the `i`-th `twilio_client.messages.create`
call: `none` if it returns normally, `some e` if it raises an exception
whose `str` is `e`.  An exception propagates out of the `for` loop to the
`except` handler, which returns `str(e)`; on normal loop exit the function
returns `True`.  The second component records the chunk bodies actually
passed to `messages.create` (including a failing call), for stating
delivery properties. -/
def sendLoop (outcome : Nat → Option String) : Nat → List String →
    (Bool ⊕ String) × List String
  | _, [] => (Sum.inl true, [])
  | i, c :: rest =>
    match outcome i with
    | some e => (Sum.inr e, [c])
    | none =>
      let r := sendLoop outcome (i + 1) rest
      (r.1, c :: r.2)

/-- `app.py` lines 92-104: split the message with `textwrap.wrap(message,
1500)` and send each chunk; return `True` on normal completion, `str(e)` if
a send raises. -/
def send_whatsapp (outcome : Nat → Option String) (message : String) :
    (Bool ⊕ String) × List String :=
  sendLoop outcome 0 (textwrap_wrap message 1500)

/- ========================================================================
   § Basic lemmas about the wrap model
   ======================================================================== -/

theorem sumLen_nil : sumLen [] = 0 := rfl

theorem sumLen_cons (c : List Char) (l : List (List Char)) :
    sumLen (c :: l) = c.length + sumLen l := by
  simp [sumLen]

theorem sumLen_append (a b : List (List Char)) :
    sumLen (a ++ b) = sumLen a + sumLen b := by
  simp [sumLen]

theorem muChunks_nil : muChunks [] = 0 := rfl

theorem muChunks_cons (c : List Char) (l : List (List Char)) :
    muChunks (c :: l) = c.length + 1 + muChunks l := by
  simp [muChunks, sumLen_cons]
  omega

theorem muChunks_append (a b : List (List Char)) :
    muChunks (a ++ b) = muChunks a + muChunks b := by
  simp [muChunks, sumLen_append]
  omega

theorem fillLine_append (width : Nat) (a : Nat) (l : List (List Char)) :
    (fillLine width a l).1 ++ (fillLine width a l).2 = l := by
  induction l generalizing a with
  | nil => rfl
  | cons c rest ih =>
    simp only [fillLine]
    split
    · simp [ih]
    · rfl

theorem fillLine_sum (width : Nat) (a : Nat) (l : List (List Char)) :
    a + sumLen (fillLine width a l).1 ≤ width ∨ (fillLine width a l).1 = [] := by
  induction l generalizing a with
  | nil => right; rfl
  | cons c rest ih =>
    simp only [fillLine]
    split
    · left
      rcases ih (a + c.length) with h | h
      · simp only [sumLen_cons]
        omega
      · simp only [sumLen_cons, h, sumLen_nil]
        omega
    · right; rfl

theorem fillLine_fst_eq_nil (width : Nat) (c : List Char) (l : List (List Char))
    (h : (fillLine width 0 (c :: l)).1 = []) : width < c.length := by
  revert h
  simp only [fillLine]
  split
  · intro h
    simp at h
  · next hcond =>
    intro _
    omega

theorem fillLine_nil (width a : Nat) : fillLine width a [] = ([], []) := rfl

theorem fillLine_fit (width a : Nat) (c : List Char) (l : List (List Char))
    (h : a + c.length ≤ width) :
    fillLine width a (c :: l) =
      (c :: (fillLine width (a + c.length) l).1, (fillLine width (a + c.length) l).2) := by
  simp only [fillLine, if_pos h]

theorem fillLine_nofit (width a : Nat) (c : List Char) (l : List (List Char))
    (h : ¬ a + c.length ≤ width) :
    fillLine width a (c :: l) = ([], c :: l) := by
  simp only [fillLine, if_neg h]

theorem lastHyphenLt_some_lt (bound : Nat) (chunk : List Char) (i : Nat)
    (h : lastHyphenLt bound chunk = some i) : i < bound := by
  have hm := List.mem_of_find?_eq_some h
  rw [List.mem_reverse, List.mem_range] at hm
  omega

theorem hlwSpaceLeft_pos (width curLen : Nat) : 1 ≤ hlwSpaceLeft width curLen ∨
    hlwSpaceLeft width curLen = width - curLen := by
  simp only [hlwSpaceLeft]
  split <;> omega

theorem hlwSpaceLeft_pos_zero (width : Nat) : 1 ≤ hlwSpaceLeft width 0 := by
  simp only [hlwSpaceLeft]
  split <;> omega

theorem hlwSpaceLeft_eq (width curLen : Nat) (hw : 1 ≤ width) :
    hlwSpaceLeft width curLen = width - curLen := by
  simp only [hlwSpaceLeft]
  rw [if_neg]
  omega

theorem hlwEnd_pos (width : Nat) (chunk : List Char) : 1 ≤ hlwEnd width 0 chunk := by
  have hsl := hlwSpaceLeft_pos_zero width
  simp only [hlwEnd]
  split
  · cases heq : lastHyphenLt (hlwSpaceLeft width 0) chunk with
    | none => exact hsl
    | some i =>
      dsimp only
      split
      · omega
      · exact hsl
  · exact hsl

theorem hlwEnd_le (width a : Nat) (chunk : List Char) (hw : 1 ≤ width) :
    hlwEnd width a chunk ≤ width - a := by
  have hsl := hlwSpaceLeft_eq width a hw
  simp only [hlwEnd, hsl]
  split
  · cases heq : lastHyphenLt (width - a) chunk with
    | none => exact le_rfl
    | some i =>
      have := lastHyphenLt_some_lt (width - a) chunk i heq
      dsimp only
      split
      · omega
      · exact le_rfl
  · exact le_rfl

theorem sumLen_dropLast_le (l : List (List Char)) :
    sumLen l.dropLast ≤ sumLen l := by
  induction l with
  | nil => simp
  | cons c rest ih =>
    cases rest with
    | nil => simp [sumLen]
    | cons d t =>
      simp only [List.dropLast_cons₂, sumLen_cons]
      have := ih
      simp only [sumLen_cons] at this ⊢
      omega

theorem sumLen_dropTrailWs_le (l : List (List Char)) :
    sumLen (dropTrailWs l) ≤ sumLen l := by
  simp only [dropTrailWs]
  split
  · split
    · exact sumLen_dropLast_le l
    · exact le_refl _
  · exact le_refl _

theorem wrapStepFill_mu_lt (width : Nat) (d : List Char) (ds : List (List Char)) :
    muChunks (wrapStepFill width (d :: ds)).2 < muChunks (d :: ds) := by
  simp only [wrapStepFill]
  have happ := fillLine_append width 0 (d :: ds)
  have hmu : muChunks (fillLine width 0 (d :: ds)).1 +
      muChunks (fillLine width 0 (d :: ds)).2 = muChunks (d :: ds) := by
    rw [← muChunks_append, happ]
  have hpos0 : 1 ≤ muChunks (d :: ds) := by rw [muChunks_cons]; omega
  cases hrem : (fillLine width 0 (d :: ds)).2 with
  | nil =>
    dsimp only
    rw [hrem, muChunks_nil]
    omega
  | cons r rs =>
    dsimp only
    by_cases hw : width < r.length
    · rw [if_pos hw]
      dsimp only
      by_cases hcur : (fillLine width 0 (d :: ds)).1 = []
      · -- first chunk does not fit; the long-word split makes progress
        have h2 : r :: rs = d :: ds := by
          conv_rhs => rw [← happ]
          rw [hcur, List.nil_append, hrem]
        have hrd : r = d ∧ rs = ds := by simpa using h2
        rw [hcur, sumLen_nil]
        have he : 1 ≤ hlwEnd width 0 r := hlwEnd_pos width r
        rw [muChunks_cons, muChunks_cons, List.length_drop, ← hrd.1, ← hrd.2]
        omega
      · -- the greedy loop consumed at least one chunk
        have hcur1 : 1 ≤ muChunks (fillLine width 0 (d :: ds)).1 := by
          cases hc : (fillLine width 0 (d :: ds)).1 with
          | nil => exact absurd hc hcur
          | cons x xs => rw [muChunks_cons]; omega
        rw [hrem, muChunks_cons] at hmu
        rw [muChunks_cons, List.length_drop]
        omega
    · rw [if_neg hw]
      have hcur : (fillLine width 0 (d :: ds)).1 ≠ [] := by
        intro hnil
        have hwd := fillLine_fst_eq_nil width d ds hnil
        have h2 : r :: rs = d :: ds := by
          conv_rhs => rw [← happ]
          rw [hnil, List.nil_append, hrem]
        have hrd : r = d := by
          have : r = d ∧ rs = ds := by simpa using h2
          exact this.1
        rw [hrd] at hw
        omega
      have hcur1 : 1 ≤ muChunks (fillLine width 0 (d :: ds)).1 := by
        cases hc : (fillLine width 0 (d :: ds)).1 with
        | nil => exact absurd hc hcur
        | cons x xs => rw [muChunks_cons]; omega
      omega

theorem wrapStepCore_mu_lt (width : Nat) (d : List Char) (ds : List (List Char)) :
    muChunks (wrapStepCore width (d :: ds)).2 < muChunks (d :: ds) := by
  simp only [wrapStepCore]
  exact wrapStepFill_mu_lt width d ds

theorem wrapStep_mu_lt (width : Nat) (first : Bool) (c : List Char)
    (cs : List (List Char)) :
    muChunks (wrapStep width first (c :: cs)).2 < muChunks (c :: cs) := by
  simp only [wrapStep]
  by_cases h : (!first && wsChunk c) = true
  · rw [if_pos h]
    cases cs with
    | nil =>
      simp only [wrapStepCore, muChunks_nil, muChunks_cons]
      omega
    | cons d ds =>
      have := wrapStepCore_mu_lt width d ds
      rw [muChunks_cons c (d :: ds)]
      omega
  · rw [if_neg h]
    exact wrapStepCore_mu_lt width c cs

theorem wrapFuel_congr (width : Nat) :
    ∀ (f g : Nat) (first : Bool) (chunks : List (List Char)),
      muChunks chunks ≤ f → muChunks chunks ≤ g →
      wrapChunksFuel width f first chunks = wrapChunksFuel width g first chunks := by
  intro f
  induction f with
  | zero =>
    intro g first chunks hf hg
    have hnil : chunks = [] := by
      cases chunks with
      | nil => rfl
      | cons c cs =>
        rw [muChunks_cons] at hf
        omega
    subst hnil
    cases g <;> rfl
  | succ f ih =>
    intro g first chunks hf hg
    cases chunks with
    | nil => cases g <;> rfl
    | cons c cs =>
      have h1 : 1 ≤ muChunks (c :: cs) := by rw [muChunks_cons]; omega
      obtain ⟨g', rfl⟩ : ∃ g', g = g' + 1 := ⟨g - 1, by omega⟩
      simp only [wrapChunksFuel]
      have hlt := wrapStep_mu_lt width first c cs
      cases hs : (wrapStep width first (c :: cs)).1 with
      | some line =>
        simp only [hs]
        exact congrArg _ (ih g' false _ (by omega) (by omega))
      | none =>
        simp only [hs]
        exact ih g' first _ (by omega) (by omega)

theorem wrapGo_nil (width : Nat) (first : Bool) : wrapChunksGo width first [] = [] := rfl

theorem wrapGo_step (width : Nat) (first : Bool) (c : List Char)
    (cs : List (List Char)) :
    wrapChunksGo width first (c :: cs) =
      match (wrapStep width first (c :: cs)).1 with
      | some line => line :: wrapChunksGo width false (wrapStep width first (c :: cs)).2
      | none => wrapChunksGo width first (wrapStep width first (c :: cs)).2 := by
  have h1 : 1 ≤ muChunks (c :: cs) := by rw [muChunks_cons]; omega
  have hm : muChunks (c :: cs) = (muChunks (c :: cs) - 1) + 1 := by omega
  have hlt := wrapStep_mu_lt width first c cs
  unfold wrapChunksGo
  rw [hm]
  simp only [wrapChunksFuel]
  cases hs : (wrapStep width first (c :: cs)).1 with
  | some line =>
    simp only [hs]
    exact congrArg _ (wrapFuel_congr width _ _ false _ (by omega) (by omega))
  | none =>
    simp only [hs]
    exact wrapFuel_congr width _ _ first _ (by omega) (by omega)

theorem sameSp_self (c : Char) : sameSp c c = true := by simp [sameSp]

theorem splitRunsFuel_congr :
    ∀ (f g : Nat) (l : List Char), l.length ≤ f → l.length ≤ g →
      splitRunsFuel f l = splitRunsFuel g l := by
  intro f
  induction f with
  | zero =>
    intro g l hf hg
    have : l = [] := by
      cases l with
      | nil => rfl
      | cons c cs => simp at hf
    subst this
    cases g <;> rfl
  | succ f ih =>
    intro g l hf hg
    cases l with
    | nil => cases g <;> rfl
    | cons c cs =>
      obtain ⟨g', rfl⟩ : ∃ g', g = g' + 1 := ⟨g - 1, by simp at hg; omega⟩
      simp only [splitRunsFuel]
      refine congrArg _ (ih g' _ ?_ ?_)
      · have hd : ((c :: cs).dropWhile (sameSp c)).length ≤ cs.length := by
          rw [List.dropWhile_cons_of_pos (by simp [sameSp])]
          exact (List.dropWhile_sublist _).length_le
        simp at hf
        omega
      · have hd : ((c :: cs).dropWhile (sameSp c)).length ≤ cs.length := by
          rw [List.dropWhile_cons_of_pos (by simp [sameSp])]
          exact (List.dropWhile_sublist _).length_le
        simp at hg
        omega

theorem splitRuns_nil : splitRuns [] = [] := rfl

theorem splitRuns_cons (c : Char) (cs : List Char) :
    splitRuns (c :: cs) =
      (c :: cs).takeWhile (sameSp c) :: splitRuns ((c :: cs).dropWhile (sameSp c)) := by
  show splitRunsFuel (c :: cs).length (c :: cs) = _
  rw [List.length_cons]
  simp only [splitRunsFuel]
  refine congrArg _ (splitRunsFuel_congr _ _ _ ?_ le_rfl)
  rw [List.dropWhile_cons_of_pos (by simp [sameSp])]
  exact (List.dropWhile_sublist _).length_le

/- ========================================================================
   § Lemmas about the send loop (claims C2 and C4)
   ======================================================================== -/

theorem sendLoop_inl_iff (outcome : Nat → Option String) :
    ∀ (l : List String) (k : Nat),
      (sendLoop outcome k l).1 = Sum.inl true ↔
        ∀ i, i < l.length → outcome (k + i) = none := by
  intro l
  induction l with
  | nil => intro k; simp [sendLoop]
  | cons c rest ih =>
    intro k
    cases ho : outcome k with
    | some e =>
      simp only [sendLoop, ho]
      constructor
      · intro h
        exact absurd h (by simp)
      · intro h
        have h0 := h 0 (by simp)
        rw [Nat.add_zero, ho] at h0
        exact absurd h0 (by simp)
    | none =>
      simp only [sendLoop, ho]
      rw [ih (k + 1)]
      constructor
      · intro h i hi
        cases i with
        | zero => simpa using ho
        | succ j =>
          have hj := h j (by simpa using hi)
          rw [show k + 1 + j = k + (j + 1) by omega] at hj
          exact hj
      · intro h j hj
        have := h (j + 1) (by simp only [List.length_cons]; omega)
        rw [show k + 1 + j = k + (j + 1) by omega]
        exact this

theorem sendLoop_shape (outcome : Nat → Option String) :
    ∀ (l : List String) (k : Nat),
      (sendLoop outcome k l).1 = Sum.inl true ∨
        ∃ e, (sendLoop outcome k l).1 = Sum.inr e := by
  intro l
  induction l with
  | nil => intro k; left; rfl
  | cons c rest ih =>
    intro k
    cases ho : outcome k with
    | some e =>
      right
      exact ⟨e, by simp [sendLoop, ho]⟩
    | none =>
      simp only [sendLoop, ho]
      exact ih (k + 1)

theorem sendLoop_firstErr (outcome : Nat → Option String) :
    ∀ (l : List String) (j k : Nat) (e : String),
      (∀ i, i < j → outcome (k + i) = none) → outcome (k + j) = some e →
      j < l.length →
      sendLoop outcome k l = (Sum.inr e, l.take (j + 1)) := by
  intro l
  induction l with
  | nil =>
    intro j k e _ _ hj
    simp at hj
  | cons c rest ih =>
    intro j k e h1 h2 hj
    cases j with
    | zero =>
      rw [Nat.add_zero] at h2
      simp [sendLoop, h2]
    | succ j' =>
      have h0 : outcome k = none := by
        have := h1 0 (Nat.succ_pos j')
        rwa [Nat.add_zero] at this
      simp only [sendLoop, h0]
      rw [ih j' (k + 1) e
        (fun i hi => by
          rw [show k + 1 + i = k + (i + 1) by omega]
          exact h1 (i + 1) (by omega))
        (by rw [show k + 1 + j' = k + (j' + 1) by omega]; exact h2)
        (by simp only [List.length_cons] at hj; omega)]
      simp [List.take_succ_cons]

/-- C2: `send_whatsapp` is total (the `try` catches every send exception);
it returns the boolean `True` exactly when every chunk send completes
without raising, and an error string (a `Sum.inr`, not a boolean) exactly
when at least one of the attempted chunk sends raises. -/
theorem C2_theorem (outcome : Nat → Option String) (message : String) :
    ((send_whatsapp outcome message).1 = Sum.inl true ↔
      ∀ i, i < (textwrap_wrap message 1500).length → outcome i = none) ∧
    ((∃ e, (send_whatsapp outcome message).1 = Sum.inr e) ↔
      ∃ i, i < (textwrap_wrap message 1500).length ∧ outcome i ≠ none) := by
  have h1 := sendLoop_inl_iff outcome (textwrap_wrap message 1500) 0
  simp only [Nat.zero_add] at h1
  constructor
  · exact h1
  · constructor
    · rintro ⟨e, he⟩
      by_contra hno
      push_neg at hno
      have hall : (send_whatsapp outcome message).1 = Sum.inl true :=
        h1.mpr (fun i hi => hno i hi)
      rw [he] at hall
      exact Sum.noConfusion hall
    · rintro ⟨i, hi, hne⟩
      rcases sendLoop_shape outcome (textwrap_wrap message 1500) 0 with h | h
      · exact absurd (h1.mp h i hi) hne
      · exact h

/-- C4 (amended): the send loop short-circuits at the first failing send:
if sends `0..j-1` succeed and send `j` raises with description `e`
(`j` within the chunk count), then exactly the first `j+1` chunks are
passed to the messaging client — later chunks are never attempted — and
the returned value is `e`, the first (and only) captured error. -/
theorem C4_theorem (outcome : Nat → Option String) (message : String) (j : Nat)
    (e : String) (h1 : ∀ i, i < j → outcome i = none) (h2 : outcome j = some e)
    (hj : j < (textwrap_wrap message 1500).length) :
    (send_whatsapp outcome message).1 = Sum.inr e ∧
    (send_whatsapp outcome message).2 = (textwrap_wrap message 1500).take (j + 1) := by
  have h := sendLoop_firstErr outcome (textwrap_wrap message 1500) j 0 e
    (by simpa using h1) (by simpa using h2) hj
  simp only [send_whatsapp]
  rw [h]
  exact ⟨rfl, rfl⟩

/-- C4, witness for the amended theorem: a single-chunk message whose first
send fails. -/
theorem C4_witness :
    (send_whatsapp (fun i => if i = 0 then some "E" else none) "hi").1 = Sum.inr "E" ∧
    (send_whatsapp (fun i => if i = 0 then some "E" else none) "hi").2 =
      (textwrap_wrap "hi" 1500).take 1 := by
  exact C4_theorem (fun i => if i = 0 then some "E" else none) "hi" 0 "E"
    (fun i hi => absurd hi (Nat.not_lt_zero i)) (by decide) (by decide)

/- ========================================================================
   § Every emitted line fits in the width (claim C7)
   ======================================================================== -/

theorem fillLine_sum_zero (width : Nat) (l : List (List Char)) :
    sumLen (fillLine width 0 l).1 ≤ width := by
  rcases fillLine_sum width 0 l with h | h
  · omega
  · rw [h, sumLen_nil]
    omega

theorem flatten_length_sumLen (l : List (List Char)) :
    l.flatten.length = sumLen l := by
  simp [sumLen]

theorem wrapStepFill_sumLen (width : Nat) (hw : 1 ≤ width) (l : List (List Char)) :
    sumLen (wrapStepFill width l).1 ≤ width := by
  simp only [wrapStepFill]
  cases hrem : (fillLine width 0 l).2 with
  | nil =>
    exact fillLine_sum_zero width l
  | cons r rs =>
    dsimp only
    by_cases hlong : width < r.length
    · rw [if_pos hlong]
      dsimp only
      rw [sumLen_append, sumLen_cons, sumLen_nil]
      have h1 := fillLine_sum_zero width l
      have h2 := hlwEnd_le width (sumLen (fillLine width 0 l).1) r hw
      have h3 : (r.take (hlwEnd width (sumLen (fillLine width 0 l).1) r)).length ≤
          hlwEnd width (sumLen (fillLine width 0 l).1) r := by
        rw [List.length_take]
        omega
      omega
    · rw [if_neg hlong]
      exact fillLine_sum_zero width l

theorem wrapStepCore_line_le (width : Nat) (hw : 1 ≤ width)
    (chunks1 : List (List Char)) (line : List Char)
    (h : (wrapStepCore width chunks1).1 = some line) : line.length ≤ width := by
  cases chunks1 with
  | nil => simp [wrapStepCore] at h
  | cons d ds =>
    simp only [wrapStepCore] at h
    split at h
    · exact absurd h (by simp)
    · have hline : (dropTrailWs (wrapStepFill width (d :: ds)).1).flatten = line := by
        injection h
      rw [← hline, flatten_length_sumLen]
      calc sumLen (dropTrailWs (wrapStepFill width (d :: ds)).1) ≤
          sumLen (wrapStepFill width (d :: ds)).1 := sumLen_dropTrailWs_le _
        _ ≤ width := wrapStepFill_sumLen width hw _

theorem wrapStep_line_le (width : Nat) (hw : 1 ≤ width) (first : Bool)
    (chunks : List (List Char)) (line : List Char)
    (h : (wrapStep width first chunks).1 = some line) : line.length ≤ width := by
  cases chunks with
  | nil => simp [wrapStep] at h
  | cons c cs =>
    simp only [wrapStep] at h
    by_cases hc : (!first && wsChunk c) = true
    · rw [if_pos hc] at h
      exact wrapStepCore_line_le width hw cs line h
    · rw [if_neg hc] at h
      exact wrapStepCore_line_le width hw (c :: cs) line h

theorem wrapGo_mem_le (width : Nat) (hw : 1 ≤ width) :
    ∀ (n : Nat) (chunks : List (List Char)) (first : Bool) (line : List Char),
      muChunks chunks ≤ n → line ∈ wrapChunksGo width first chunks →
      line.length ≤ width := by
  intro n
  induction n with
  | zero =>
    intro chunks first line hn hmem
    have hnil : chunks = [] := by
      cases chunks with
      | nil => rfl
      | cons c cs => rw [muChunks_cons] at hn; omega
    subst hnil
    rw [wrapGo_nil] at hmem
    simp at hmem
  | succ n ih =>
    intro chunks first line hn hmem
    cases chunks with
    | nil => rw [wrapGo_nil] at hmem; simp at hmem
    | cons c cs =>
      rw [wrapGo_step] at hmem
      have hlt := wrapStep_mu_lt width first c cs
      cases hs : (wrapStep width first (c :: cs)).1 with
      | some l2 =>
        rw [hs] at hmem
        rcases List.mem_cons.mp hmem with h | h
        · subst h
          exact wrapStep_line_le width hw first (c :: cs) line hs
        · exact ih _ false line (by omega) h
      | none =>
        rw [hs] at hmem
        exact ih _ first line (by omega) hmem

/-- C7: every chunk produced by the `textwrap.wrap(message, 1500)` call in
`send_whatsapp` has length at most 1500 characters. -/
theorem C7_theorem (message chunk : String)
    (h : chunk ∈ textwrap_wrap message 1500) : chunk.length ≤ 1500 := by
  simp only [textwrap_wrap, wrapList, List.mem_map] at h
  obtain ⟨l, hl, rfl⟩ := h
  exact wrapGo_mem_le 1500 (by omega)
    (muChunks (splitRuns (mungeWhitespace message.data))) _ true l le_rfl hl

/-- C7, witness at a concrete message. -/
theorem C7_witness : ("hi" : String).length ≤ 1500 :=
  C7_theorem "hi" "hi" (by decide)

/- ========================================================================
   § Whitespace-only messages (claim C10)
   ======================================================================== -/

theorem twWS_imp_py (c : Char) (h : twWS c = true) : pyIsSpace c = true := by
  simp only [twWS, Bool.or_eq_true, beq_iff_eq] at h
  rcases h with ((((rfl | rfl) | rfl) | rfl) | rfl) | rfl <;> decide

theorem expandtabs_ws :
    ∀ (l : List Char), (∀ c ∈ l, twWS c = true) →
      ∀ (col : Nat), ∀ c ∈ expandtabsGo 8 col l, twWS c = true := by
  intro l
  induction l with
  | nil =>
    intro _ col c hc
    simp [expandtabsGo] at hc
  | cons a as ih =>
    intro hall col c hc
    have has : ∀ x ∈ as, twWS x = true :=
      fun x hx => hall x (List.mem_cons_of_mem a hx)
    simp only [expandtabsGo] at hc
    by_cases ha : a = Char.ofNat 9
    · rw [if_pos ha] at hc
      rcases List.mem_append.mp hc with h | h
      · rw [List.eq_of_mem_replicate h]
        decide
      · exact ih has _ c h
    · rw [if_neg ha] at hc
      by_cases hb : a = Char.ofNat 10 ∨ a = Char.ofNat 13
      · rw [if_pos hb] at hc
        rcases List.mem_cons.mp hc with h | h
        · rw [h]; exact hall a (List.mem_cons_self a as)
        · exact ih has _ c h
      · rw [if_neg hb] at hc
        rcases List.mem_cons.mp hc with h | h
        · rw [h]; exact hall a (List.mem_cons_self a as)
        · exact ih has _ c h

theorem munge_ws (l : List Char) (h : ∀ c ∈ l, twWS c = true) :
    ∀ c ∈ mungeWhitespace l, c = ' ' := by
  intro c hc
  simp only [mungeWhitespace, List.mem_map] at hc
  obtain ⟨a, ha, rfl⟩ := hc
  rw [if_pos (expandtabs_ws l h 0 a ha)]

theorem takeWhile_all {p : Char → Bool} :
    ∀ (l : List Char), (∀ c ∈ l, p c = true) → l.takeWhile p = l := by
  intro l
  induction l with
  | nil => intro _; rfl
  | cons a as ih =>
    intro h
    rw [List.takeWhile_cons_of_pos (h a (List.mem_cons_self a as))]
    rw [ih (fun c hc => h c (List.mem_cons_of_mem a hc))]

theorem dropWhile_all {p : Char → Bool} :
    ∀ (l : List Char), (∀ c ∈ l, p c = true) → l.dropWhile p = [] := by
  intro l
  induction l with
  | nil => intro _; rfl
  | cons a as ih =>
    intro h
    rw [List.dropWhile_cons_of_pos (h a (List.mem_cons_self a as))]
    exact ih (fun c hc => h c (List.mem_cons_of_mem a hc))

theorem splitRuns_spaces (n : Nat) :
    splitRuns (List.replicate (n + 1) ' ') = [List.replicate (n + 1) ' '] := by
  have hmem : ∀ c ∈ List.replicate (n + 1) ' ', sameSp ' ' c = true := by
    intro c hc
    rw [List.eq_of_mem_replicate hc]
    exact sameSp_self ' '
  rw [List.replicate_succ, splitRuns_cons,
    takeWhile_all _ (by rw [← List.replicate_succ]; exact hmem),
    dropWhile_all _ (by rw [← List.replicate_succ]; exact hmem),
    splitRuns_nil]

theorem getD_replicate_space (m i : Nat) :
    (List.replicate m ' ').getD i ' ' = ' ' := by
  rcases Nat.lt_or_ge i m with h | h
  · rw [List.getD_eq_getElem _ _ (by simpa using h)]
    simp
  · rw [List.getD_eq_default]
    simpa using h

theorem lastHyphenLt_spaces (b m : Nat) :
    lastHyphenLt b (List.replicate m ' ') = none := by
  simp only [lastHyphenLt]
  rw [List.find?_eq_none]
  intro i _
  rw [getD_replicate_space]
  decide

theorem wsChunk_replicate_space (m : Nat) :
    wsChunk (List.replicate m ' ') = true := by
  simp only [wsChunk, List.all_eq_true]
  intro c hc
  rw [List.eq_of_mem_replicate hc]
  decide

theorem hlwEnd_spaces (width m : Nat) (hw : 1 ≤ width) :
    hlwEnd width 0 (List.replicate m ' ') = width := by
  have hsl : hlwSpaceLeft width 0 = width := by
    rw [hlwSpaceLeft_eq width 0 hw]
    omega
  simp only [hlwEnd, hsl, lastHyphenLt_spaces]
  split <;> rfl

theorem wrapGo_spaces (width : Nat) (hw : 1 ≤ width) :
    ∀ (m : Nat) (first : Bool),
      wrapChunksGo width first [List.replicate m ' '] = [] := by
  intro m
  induction m using Nat.strong_induction_on with
  | _ m ih =>
    intro first
    rw [wrapGo_step]
    by_cases hdrop : (!first && wsChunk (List.replicate m ' ')) = true
    · have hstep : wrapStep width first [List.replicate m ' '] = (none, []) := by
        simp only [wrapStep, if_pos hdrop]
        rfl
      rw [hstep]
      rfl
    · have harg : (if (!first && wsChunk (List.replicate m ' ')) = true
          then ([] : List (List Char)) else [List.replicate m ' ']) =
          [List.replicate m ' '] := if_neg hdrop
      by_cases hfit : m ≤ width
      · have hfl : fillLine width 0 [List.replicate m ' '] =
            ([List.replicate m ' '], []) := by
          rw [fillLine_fit]
          · rfl
          · simpa using hfit
        have hstep : wrapStep width first [List.replicate m ' '] = (none, []) := by
          simp only [wrapStep, harg, wrapStepCore, wrapStepFill, hfl]
          simp [dropTrailWs, wsChunk_replicate_space]
        rw [hstep]
        rfl
      · have hfl : fillLine width 0 [List.replicate m ' '] =
            ([], [List.replicate m ' ']) := by
          rw [fillLine_nofit]
          simpa using hfit
        have hlong : width < (List.replicate m ' ').length := by
          simpa using hfit
        have hfill : wrapStepFill width [List.replicate m ' '] =
            ([List.replicate width ' '], [List.replicate (m - width) ' ']) := by
          simp only [wrapStepFill, hfl, if_pos hlong]
          rw [sumLen_nil, hlwEnd_spaces width m hw]
          rw [List.take_replicate, List.drop_replicate, Nat.min_eq_left (by omega)]
          rfl
        have hstep : wrapStep width first [List.replicate m ' '] =
            (none, [List.replicate (m - width) ' ']) := by
          simp only [wrapStep, harg, wrapStepCore, hfill]
          simp [dropTrailWs, wsChunk_replicate_space]
        rw [hstep]
        show wrapChunksGo width first [List.replicate (m - width) ' '] = []
        exact ih (m - width) (by omega) first

/-- C10 (amended): for the empty message and every message consisting only
of the six ASCII whitespace characters that `textwrap` treats as
whitespace (space, tab, newline, vertical tab, form feed, carriage
return), `textwrap.wrap` returns no chunks, so `send_whatsapp` performs
zero chunk sends and returns `True` — whatever the send outcomes would
have been. -/
theorem C10_theorem (outcome : Nat → Option String) (message : String)
    (h : ∀ c ∈ message.data, twWS c = true) :
    send_whatsapp outcome message = (Sum.inl true, []) ∧
    textwrap_wrap message 1500 = [] := by
  have hrep : mungeWhitespace message.data =
      List.replicate (mungeWhitespace message.data).length ' ' :=
    List.eq_replicate_of_mem (munge_ws message.data h)
  have hwrap : textwrap_wrap message 1500 = [] := by
    simp only [textwrap_wrap, wrapList]
    cases hlen : (mungeWhitespace message.data).length with
    | zero =>
      rw [hrep, hlen]
      rfl
    | succ n =>
      rw [hrep, hlen, splitRuns_spaces, wrapGo_spaces 1500 (by omega)]
      rfl
  refine ⟨?_, hwrap⟩
  simp only [send_whatsapp, hwrap]
  rfl

/-- C10, witness: a space-and-newline message with an always-failing send
outcome still returns `True` with zero sends. -/
theorem C10_witness :
    send_whatsapp (fun _ => some "E") " \n" = (Sum.inl true, []) ∧
    textwrap_wrap " \n" 1500 = [] :=
  C10_theorem (fun _ => some "E") " \n" (by decide)

/-- C10, counterexample to the claim as stated: the two-character message
`"  "` (space followed by no-break space) is whitespace-only in
Python's sense (`str.isspace()` is true for both characters), yet
`textwrap.wrap` keeps the no-break space run as a chunk, drops it as
trailing whitespace, and emits the line `" "` — so `send_whatsapp`
performs one chunk send, not zero. -/
theorem C10_counterexample :
    (String.mk [' ', Char.ofNat 160]).data.all pyIsSpace = true ∧
    (send_whatsapp (fun _ => none) (String.mk [' ', Char.ofNat 160])).2 = [" "] := by
  constructor
  · decide
  · decide

/- ========================================================================
   § Word-wrap round trip for space-separated words (claim C3)
   ======================================================================== -/

/-- The chunk list `_split` produces for a message of words separated by
single spaces: the words interleaved with single-space chunks. -/
def interleave : List (List Char) → List (List Char)
  | [] => []
  | [w] => [w]
  | w :: ws => w :: [' '] :: interleave ws

/-- Words joined by single spaces, on character lists. -/
def joinSpL : List (List Char) → List Char
  | [] => []
  | [w] => w
  | w :: ws => w ++ ' ' :: joinSpL ws

/-- Strings joined by single spaces (the re-joining of chunks at the wrap
points that claim C3 speaks about). -/
def joinSpS : List String → String
  | [] => ""
  | [w] => w
  | w :: ws => w ++ " " ++ joinSpS ws

/-- A word a wrap round trip can preserve: non-empty, at most `width`
characters, and free of Python whitespace. -/
def GoodWord (width : Nat) (w : List Char) : Prop :=
  w ≠ [] ∧ w.length ≤ width ∧ ∀ c ∈ w, pyIsSpace c = false

theorem interleave_pair (w x : List Char) (t : List (List Char)) :
    interleave (w :: x :: t) = w :: [' '] :: interleave (x :: t) := rfl

theorem joinSpL_pair (w x : List Char) (t : List (List Char)) :
    joinSpL (w :: x :: t) = w ++ ' ' :: joinSpL (x :: t) := rfl

theorem joinSpS_pair (w x : String) (t : List String) :
    joinSpS (w :: x :: t) = w ++ " " ++ joinSpS (x :: t) := rfl

theorem interleave_cons_of_ne (w : List Char) (ws : List (List Char))
    (h : ws ≠ []) : interleave (w :: ws) = w :: [' '] :: interleave ws := by
  cases ws with
  | nil => exact absurd rfl h
  | cons x t => rfl

theorem joinSpL_cons_of_ne (w : List Char) (ws : List (List Char))
    (h : ws ≠ []) : joinSpL (w :: ws) = w ++ ' ' :: joinSpL ws := by
  cases ws with
  | nil => exact absurd rfl h
  | cons x t => rfl

theorem joinSpL_append (a b : List (List Char)) (ha : a ≠ []) (hb : b ≠ []) :
    joinSpL (a ++ b) = joinSpL a ++ ' ' :: joinSpL b := by
  induction a with
  | nil => exact absurd rfl ha
  | cons x t ih =>
    cases t with
    | nil =>
      rw [List.singleton_append, joinSpL_cons_of_ne x b hb]
      rfl
    | cons y t2 =>
      rw [List.cons_append, joinSpL_cons_of_ne x ((y :: t2) ++ b) (by simp),
        ih (by simp), joinSpL_pair, List.append_assoc]
      rfl

theorem flatten_interleave (ws : List (List Char)) :
    (interleave ws).flatten = joinSpL ws := by
  induction ws with
  | nil => rfl
  | cons w t ih =>
    cases t with
    | nil => simp [interleave, joinSpL]
    | cons x t2 =>
      rw [interleave_pair, joinSpL_pair]
      simp only [List.flatten_cons] at ih ⊢
      rw [ih]
      simp

theorem interleave_ne_nil (ws : List (List Char)) (h : ws ≠ []) :
    interleave ws ≠ [] := by
  cases ws with
  | nil => exact absurd rfl h
  | cons w t =>
    cases t with
    | nil => simp [interleave]
    | cons x t2 => simp [interleave_pair]

theorem interleave_head (w : List Char) (ws : List (List Char)) :
    ∃ tail, interleave (w :: ws) = w :: tail := by
  cases ws with
  | nil => exact ⟨[], rfl⟩
  | cons x t => exact ⟨[' '] :: interleave (x :: t), rfl⟩

theorem interleave_getLast (ws : List (List Char)) :
    (interleave ws).getLast? = ws.getLast? := by
  induction ws with
  | nil => rfl
  | cons w t ih =>
    cases t with
    | nil => rfl
    | cons x t2 =>
      rw [interleave_pair]
      obtain ⟨tl, htl⟩ := interleave_head x t2
      rw [htl, List.getLast?_cons_cons, List.getLast?_cons_cons, ← htl, ih,
        List.getLast?_cons_cons]

theorem wsChunk_false_of_GoodWord (width : Nat) (w : List Char)
    (h : GoodWord width w) : wsChunk w = false := by
  obtain ⟨hne, _, hchar⟩ := h
  cases w with
  | nil => exact absurd rfl hne
  | cons c t =>
    have hc := hchar c (List.mem_cons_self c t)
    simp [wsChunk, hc]

theorem beq_space_false (c : Char) (h : pyIsSpace c = false) : (c == ' ') = false := by
  cases hb : (c == ' ') with
  | false => rfl
  | true =>
    have hc : c = ' ' := by simpa using hb
    subst hc
    exact absurd h (by decide)

theorem takeWhile_append_stop {p : Char → Bool} :
    ∀ (w rest : List Char), (∀ c ∈ w, p c = true) →
      (∀ y, rest.head? = some y → p y = false) →
      (w ++ rest).takeWhile p = w ∧ (w ++ rest).dropWhile p = rest := by
  intro w
  induction w with
  | nil =>
    intro rest _ h2
    cases rest with
    | nil => exact ⟨rfl, rfl⟩
    | cons y t =>
      have hy := h2 y rfl
      refine ⟨?_, ?_⟩
      · rw [List.nil_append, List.takeWhile_cons_of_neg (by simp [hy])]
      · rw [List.nil_append, List.dropWhile_cons_of_neg (by simp [hy])]
  | cons a as ih =>
    intro rest h1 h2
    have ha := h1 a (List.mem_cons_self a as)
    obtain ⟨iht, ihd⟩ := ih rest (fun c hc => h1 c (List.mem_cons_of_mem a hc)) h2
    refine ⟨?_, ?_⟩
    · rw [List.cons_append, List.takeWhile_cons_of_pos ha, iht]
    · rw [List.cons_append, List.dropWhile_cons_of_pos ha, ihd]

theorem splitRuns_word (w rest : List Char) (hw : w ≠ [])
    (hns : ∀ c ∈ w, (c == ' ') = false)
    (hrest : rest = [] ∨ rest.head? = some ' ') :
    splitRuns (w ++ rest) = w :: splitRuns rest := by
  cases w with
  | nil => exact absurd rfl hw
  | cons a as =>
    have ha : (a == ' ') = false := hns a (List.mem_cons_self a as)
    have hp : ∀ c ∈ a :: as, sameSp a c = true := by
      intro c hc
      simp [sameSp, ha, hns c hc]
    have hstop : ∀ y, rest.head? = some y → sameSp a y = false := by
      intro y hy
      rcases hrest with h | h
      · rw [h] at hy
        simp at hy
      · rw [h] at hy
        have hy' : y = ' ' := by simpa using hy.symm
        subst hy'
        simp [sameSp, ha]
    obtain ⟨ht, hd⟩ := takeWhile_append_stop (a :: as) rest hp hstop
    rw [List.cons_append, splitRuns_cons, ← List.cons_append, ht, hd]

theorem splitRuns_space (rest : List Char) (y : Char) (hy : rest.head? = some y)
    (hny : (y == ' ') = false) :
    splitRuns (' ' :: rest) = [' '] :: splitRuns rest := by
  cases rest with
  | nil => simp at hy
  | cons z t =>
    have hnz : (z == ' ') = false := by
      have hz : z = y := by simpa using hy
      rw [hz]
      exact hny
    rw [splitRuns_cons]
    have h1 : (' ' :: z :: t).takeWhile (sameSp ' ') = [' '] := by
      rw [List.takeWhile_cons_of_pos (sameSp_self ' '),
        List.takeWhile_cons_of_neg (by simp [sameSp, hnz])]
    have h2 : (' ' :: z :: t).dropWhile (sameSp ' ') = z :: t := by
      rw [List.dropWhile_cons_of_pos (sameSp_self ' '),
        List.dropWhile_cons_of_neg (by simp [sameSp, hnz])]
    rw [h1, h2]

theorem joinSpL_head (x : List Char) (t : List (List Char)) (hx : x ≠ []) :
    (joinSpL (x :: t)).head? = x.head? := by
  cases t with
  | nil => rfl
  | cons y t2 =>
    rw [joinSpL_pair]
    cases x with
    | nil => exact absurd rfl hx
    | cons c cs => rfl

theorem splitRuns_joinSpL (width : Nat) :
    ∀ (ws : List (List Char)), (∀ w ∈ ws, GoodWord width w) →
      splitRuns (joinSpL ws) = interleave ws := by
  intro ws
  induction ws with
  | nil => intro _; rfl
  | cons w t ih =>
    intro hgood
    have hw := hgood w (List.mem_cons_self w t)
    have hbeq : ∀ c ∈ w, (c == ' ') = false :=
      fun c hc => beq_space_false c (hw.2.2 c hc)
    cases t with
    | nil =>
      have hjoin : joinSpL [w] = w ++ [] := by simp [joinSpL]
      show splitRuns (joinSpL [w]) = interleave [w]
      rw [hjoin, splitRuns_word w [] hw.1 hbeq (Or.inl rfl)]
      rfl
    | cons x t2 =>
      have hx := hgood x (by simp)
      rw [joinSpL_pair, splitRuns_word w (' ' :: joinSpL (x :: t2)) hw.1 hbeq
        (Or.inr rfl)]
      obtain ⟨c0, cs0, hx0⟩ : ∃ c0 cs0, x = c0 :: cs0 := by
        cases x with
        | nil => exact absurd rfl hx.1
        | cons c0 cs0 => exact ⟨c0, cs0, rfl⟩
      have hhead : (joinSpL (x :: t2)).head? = some c0 := by
        rw [joinSpL_head x t2 hx.1, hx0]
        rfl
      have hc0 : (c0 == ' ') = false := by
        apply beq_space_false
        apply hx.2.2
        rw [hx0]
        exact List.mem_cons_self _ _
      rw [splitRuns_space (joinSpL (x :: t2)) c0 hhead hc0,
        ih (fun u hu => hgood u (List.mem_cons_of_mem w hu)), interleave_pair]

theorem isEmpty_false_of_ne (l : List (List Char)) (h : l ≠ []) :
    l.isEmpty = false := by
  cases l with
  | nil => exact absurd rfl h
  | cons a t => rfl

theorem dropTrailWs_interleave (width : Nat) (g : List (List Char)) (hg : g ≠ [])
    (hgood : ∀ w ∈ g, GoodWord width w) :
    dropTrailWs (interleave g) = interleave g := by
  have hfalse : wsChunk (g.getLast hg) = false :=
    wsChunk_false_of_GoodWord width _ (hgood _ (List.getLast_mem hg))
  simp only [dropTrailWs, interleave_getLast]
  rw [List.getLast?_eq_getLast g hg]
  simp [hfalse]

theorem dropTrailWs_concat_space (l : List (List Char)) :
    dropTrailWs (l ++ [[' ']]) = l := by
  have hws : wsChunk [' '] = true := by decide
  simp only [dropTrailWs, List.getLast?_concat]
  simp [hws, List.dropLast_concat]

theorem fillLine_fit_space (width a : Nat) (l : List (List Char))
    (h : a + 1 ≤ width) :
    fillLine width a ([' '] :: l) =
      ([' '] :: (fillLine width (a + 1) l).1, (fillLine width (a + 1) l).2) := by
  have hlen : a + ([' '] : List Char).length ≤ width := by simpa using h
  have := fillLine_fit width a [' '] l hlen
  simpa using this

theorem fillLine_nofit_space (width a : Nat) (l : List (List Char))
    (h : ¬ a + 1 ≤ width) :
    fillLine width a ([' '] :: l) = ([], [' '] :: l) := by
  apply fillLine_nofit
  simpa using h

theorem fillLine_interleave (width : Nat) :
    ∀ (ws : List (List Char)) (acc : Nat), ws ≠ [] →
      (∀ w ∈ ws, GoodWord width w) →
      ∃ g ws', ws = g ++ ws' ∧
        ((g ≠ [] ∧ ws' = [] ∧
            fillLine width acc (interleave ws) = (interleave g, [])) ∨
         (g ≠ [] ∧ ws' ≠ [] ∧
            fillLine width acc (interleave ws) =
              (interleave g, [' '] :: interleave ws')) ∨
         (g ≠ [] ∧ ws' ≠ [] ∧
            fillLine width acc (interleave ws) =
              (interleave g ++ [[' ']], interleave ws')) ∨
         (g = [] ∧ ws' = ws ∧
            fillLine width acc (interleave ws) = ([], interleave ws) ∧
            ∃ w t, ws = w :: t ∧ width < acc + w.length)) := by
  intro ws
  induction ws with
  | nil => intro acc h _; exact absurd rfl h
  | cons w rest ih =>
    intro acc _ hgood
    cases rest with
    | nil =>
      by_cases hfit : acc + w.length ≤ width
      · refine ⟨[w], [], by simp, Or.inl ⟨by simp, rfl, ?_⟩⟩
        show fillLine width acc [w] = ([w], [])
        rw [fillLine_fit width acc w [] hfit, fillLine_nil]
      · refine ⟨[], [w], by simp,
          Or.inr (Or.inr (Or.inr ⟨rfl, rfl, ?_, w, [], rfl, by omega⟩))⟩
        show fillLine width acc [w] = ([], [w])
        exact fillLine_nofit width acc w [] hfit
    | cons x t =>
      by_cases hfit : acc + w.length ≤ width
      · by_cases hfit2 : acc + w.length + 1 ≤ width
        · obtain ⟨g', ws'', hsplit, hcase⟩ := ih (acc + w.length + 1) (by simp)
            (fun u hu => hgood u (List.mem_cons_of_mem w hu))
          have hcompute : fillLine width acc (interleave (w :: x :: t)) =
              (w :: [' '] ::
                (fillLine width (acc + w.length + 1) (interleave (x :: t))).1,
                (fillLine width (acc + w.length + 1) (interleave (x :: t))).2) := by
            rw [interleave_pair, fillLine_fit width acc w _ hfit,
              fillLine_fit_space width (acc + w.length) _ hfit2]
          rcases hcase with ⟨hg', hws'', heq⟩ | ⟨hg', hws'', heq⟩ |
            ⟨hg', hws'', heq⟩ | ⟨hg', hws'', heq, hbig⟩
          · refine ⟨w :: g', [], by simp [hsplit, hws''],
              Or.inl ⟨by simp, rfl, ?_⟩⟩
            rw [hcompute, heq, interleave_cons_of_ne w g' hg']
          · refine ⟨w :: g', ws'', by simp [hsplit],
              Or.inr (Or.inl ⟨by simp, hws'', ?_⟩)⟩
            rw [hcompute, heq, interleave_cons_of_ne w g' hg']
          · refine ⟨w :: g', ws'', by simp [hsplit],
              Or.inr (Or.inr (Or.inl ⟨by simp, hws'', ?_⟩))⟩
            rw [hcompute, heq, interleave_cons_of_ne w g' hg']
            simp
          · refine ⟨[w], x :: t, rfl,
              Or.inr (Or.inr (Or.inl ⟨by simp, by simp, ?_⟩))⟩
            rw [hcompute, heq]
            rfl
        · refine ⟨[w], x :: t, rfl, Or.inr (Or.inl ⟨by simp, by simp, ?_⟩)⟩
          show fillLine width acc (interleave (w :: x :: t)) =
            (interleave [w], [' '] :: interleave (x :: t))
          rw [interleave_pair, fillLine_fit width acc w _ hfit,
            fillLine_nofit_space width (acc + w.length) _ hfit2]
          rfl
      · refine ⟨[], w :: x :: t, rfl,
          Or.inr (Or.inr (Or.inr ⟨rfl, rfl, ?_, w, x :: t, rfl, by omega⟩))⟩
        show fillLine width acc (interleave (w :: x :: t)) =
          ([], interleave (w :: x :: t))
        rw [interleave_pair]
        exact fillLine_nofit width acc w _ hfit

theorem wrapStep_interleave (width : Nat) (hw : 1 ≤ width)
    (ws : List (List Char)) (first : Bool) (hne : ws ≠ [])
    (hgood : ∀ w ∈ ws, GoodWord width w) :
    ∃ g ws', ws = g ++ ws' ∧ g ≠ [] ∧
      ((ws' = [] ∧ wrapStep width first (interleave ws) = (some (joinSpL g), [])) ∨
       (ws' ≠ [] ∧
         (wrapStep width first (interleave ws) =
            (some (joinSpL g), [' '] :: interleave ws') ∨
          wrapStep width first (interleave ws) =
            (some (joinSpL g), interleave ws')))) := by
  obtain ⟨w0, rest0, rfl⟩ : ∃ w0 rest0, ws = w0 :: rest0 := by
    cases ws with
    | nil => exact absurd rfl hne
    | cons a t => exact ⟨a, t, rfl⟩
  obtain ⟨tail, htail⟩ := interleave_head w0 rest0
  have hw0 := hgood w0 (List.mem_cons_self _ _)
  have hnodrop : wrapStep width first (interleave (w0 :: rest0)) =
      wrapStepCore width (interleave (w0 :: rest0)) := by
    rw [htail]
    simp [wrapStep, wsChunk_false_of_GoodWord width w0 hw0]
  obtain ⟨g, ws', hsplit, hcase⟩ :=
    fillLine_interleave width (w0 :: rest0) 0 (by simp) hgood
  have hgoodg : ∀ u ∈ g, GoodWord width u := by
    intro u hu
    exact hgood u (by rw [hsplit]; exact List.mem_append_left _ hu)
  rcases hcase with ⟨hg, hws', heq⟩ | ⟨hg, hws', heq⟩ | ⟨hg, hws', heq⟩ |
    ⟨hg, hws', heq, w1, t1, hwt, hbig⟩
  · -- everything fits on one line
    have hfill : wrapStepFill width (interleave (w0 :: rest0)) =
        (interleave g, []) := by
      simp only [wrapStepFill, heq]
    refine ⟨g, [], by rw [hsplit, hws'], hg, Or.inl ⟨rfl, ?_⟩⟩
    rw [hnodrop, htail]
    simp only [wrapStepCore]
    rw [← htail, hfill]
    simp only [dropTrailWs_interleave width g hg hgoodg,
      isEmpty_false_of_ne _ (interleave_ne_nil g hg)]
    rw [flatten_interleave]
    rfl
  · -- the greedy loop stopped at a space chunk
    have hfill : wrapStepFill width (interleave (w0 :: rest0)) =
        (interleave g, [' '] :: interleave ws') := by
      simp only [wrapStepFill, heq]
      rw [if_neg (by simp; omega)]
    refine ⟨g, ws', hsplit, hg, Or.inr ⟨hws', Or.inl ?_⟩⟩
    rw [hnodrop, htail]
    simp only [wrapStepCore]
    rw [← htail, hfill]
    simp only [dropTrailWs_interleave width g hg hgoodg,
      isEmpty_false_of_ne _ (interleave_ne_nil g hg)]
    rw [flatten_interleave]
    rfl
  · -- the greedy loop took the trailing space, stopped at a word
    obtain ⟨w1, t1, rfl⟩ : ∃ w1 t1, ws' = w1 :: t1 := by
      cases ws' with
      | nil => exact absurd rfl hws'
      | cons a t => exact ⟨a, t, rfl⟩
    have hw1 : GoodWord width w1 := by
      apply hgood
      rw [hsplit]
      exact List.mem_append_right _ (List.mem_cons_self _ _)
    obtain ⟨tail1, htail1⟩ := interleave_head w1 t1
    have hfill : wrapStepFill width (interleave (w0 :: rest0)) =
        (interleave g ++ [[' ']], interleave (w1 :: t1)) := by
      simp only [wrapStepFill, heq, htail1]
      rw [if_neg (by have := hw1.2.1; omega)]
    refine ⟨g, w1 :: t1, hsplit, hg, Or.inr ⟨by simp, Or.inr ?_⟩⟩
    rw [hnodrop, htail]
    simp only [wrapStepCore]
    rw [← htail, hfill]
    simp only [dropTrailWs_concat_space,
      isEmpty_false_of_ne _ (interleave_ne_nil g hg)]
    rw [flatten_interleave]
    rfl
  · -- impossible at acc = 0: the first word always fits
    exfalso
    have hwt1 : w1 = w0 := by
      have : w0 = w1 := by injection hwt
      exact this.symm
    have := hw0.2.1
    rw [hwt1] at hbig
    omega

theorem wrapGo_drop_space (width : Nat) (c d : List Char) (ds : List (List Char))
    (hc : wsChunk c = true) (hd : wsChunk d = false) :
    wrapChunksGo width false (c :: d :: ds) = wrapChunksGo width false (d :: ds) := by
  have hstep : wrapStep width false (c :: d :: ds) = wrapStep width false (d :: ds) := by
    simp [wrapStep, hc, hd]
  rw [wrapGo_step, wrapGo_step, hstep]

theorem wrapGo_interleave (width : Nat) (hw : 1 ≤ width) :
    ∀ (n : Nat) (ws : List (List Char)) (first : Bool),
      ws.length ≤ n → ws ≠ [] → (∀ w ∈ ws, GoodWord width w) →
      wrapChunksGo width first (interleave ws) ≠ [] ∧
      joinSpL (wrapChunksGo width first (interleave ws)) = joinSpL ws := by
  intro n
  induction n with
  | zero =>
    intro ws first hlen hne _
    cases ws with
    | nil => exact absurd rfl hne
    | cons a t => simp at hlen
  | succ n ih =>
    intro ws first hlen hne hgood
    obtain ⟨g, ws', hsplit, hg, hcase⟩ :=
      wrapStep_interleave width hw ws first hne hgood
    obtain ⟨w0, rest0, hws0⟩ : ∃ w0 rest0, ws = w0 :: rest0 := by
      cases ws with
      | nil => exact absurd rfl hne
      | cons a t => exact ⟨a, t, rfl⟩
    obtain ⟨tail, htail⟩ : ∃ tail, interleave ws = w0 :: tail := by
      rw [hws0]
      exact interleave_head w0 rest0
    rcases hcase with ⟨hnil', hstep⟩ | ⟨hne', hstep2⟩
    · -- single line, no chunks remain
      have hfin : wrapChunksGo width first (interleave ws) = [joinSpL g] := by
        rw [htail] at hstep ⊢
        rw [wrapGo_step, hstep]
        rfl
      rw [hfin]
      refine ⟨by simp, ?_⟩
      have hgws : g = ws := by
        rw [hsplit, hnil', List.append_nil]
      rw [hgws]
      rfl
    · -- at least one more line
      have hlen' : ws'.length ≤ n := by
        have h1 : ws.length = g.length + ws'.length := by
          rw [hsplit, List.length_append]
        have h2 : 1 ≤ g.length := by
          cases g with
          | nil => exact absurd rfl hg
          | cons a t => simp
        omega
      have hgood' : ∀ u ∈ ws', GoodWord width u := fun u hu =>
        hgood u (by rw [hsplit]; exact List.mem_append_right _ hu)
      obtain ⟨hne2, hjoin2⟩ := ih ws' false hlen' hne' hgood'
      have hrec : wrapChunksGo width first (interleave ws) =
          joinSpL g :: wrapChunksGo width false (interleave ws') := by
        rcases hstep2 with hstepA | hstepB
        · rw [htail] at hstepA
          rw [htail, wrapGo_step, hstepA]
          dsimp only
          congr 1
          obtain ⟨w1, t1, hws1⟩ : ∃ w1 t1, ws' = w1 :: t1 := by
            cases ws' with
            | nil => exact absurd rfl hne'
            | cons a t => exact ⟨a, t, rfl⟩
          obtain ⟨tl1, htl1⟩ := interleave_head w1 t1
          rw [hws1, htl1]
          exact wrapGo_drop_space width [' '] w1 tl1 (by decide)
            (wsChunk_false_of_GoodWord width w1
              (hgood' w1 (by rw [hws1]; exact List.mem_cons_self _ _)))
        · rw [htail] at hstepB
          rw [htail, wrapGo_step, hstepB]
      rw [hrec]
      refine ⟨by simp, ?_⟩
      obtain ⟨y, ys, hyys⟩ : ∃ y ys,
          wrapChunksGo width false (interleave ws') = y :: ys := by
        cases hq : wrapChunksGo width false (interleave ws') with
        | nil => exact absurd hq hne2
        | cons y ys => exact ⟨y, ys, rfl⟩
      rw [hyys, joinSpL_pair, ← hyys, hjoin2,
        ← joinSpL_append g ws' hg hne', ← hsplit]

theorem expandtabs_id : ∀ (l : List Char), (∀ c ∈ l, c ≠ Char.ofNat 9) →
    ∀ col, expandtabsGo 8 col l = l := by
  intro l
  induction l with
  | nil => intro _ _; rfl
  | cons a as ih =>
    intro h col
    have ha := h a (List.mem_cons_self a as)
    simp only [expandtabsGo, if_neg ha]
    split
    · rw [ih (fun c hc => h c (List.mem_cons_of_mem a hc)) 0]
    · rw [ih (fun c hc => h c (List.mem_cons_of_mem a hc)) (col + 1)]

theorem twWS_false_of_word (c : Char) (h : pyIsSpace c = false) : twWS c = false := by
  cases ht : twWS c with
  | false => rfl
  | true =>
    have hp := twWS_imp_py c ht
    rw [hp] at h
    exact Bool.noConfusion h

theorem joinSpL_chars (ws : List (List Char))
    (h : ∀ w ∈ ws, ∀ c ∈ w, pyIsSpace c = false) :
    ∀ c ∈ joinSpL ws, c = ' ' ∨ pyIsSpace c = false := by
  induction ws with
  | nil =>
    intro c hc
    simp [joinSpL] at hc
  | cons w t ih =>
    intro c hc
    cases t with
    | nil =>
      right
      have hw : joinSpL [w] = w := rfl
      rw [hw] at hc
      exact h w (List.mem_cons_self _ _) c hc
    | cons x t2 =>
      rw [joinSpL_pair] at hc
      rcases List.mem_append.mp hc with h1 | h1
      · right
        exact h w (List.mem_cons_self _ _) c h1
      · rcases List.mem_cons.mp h1 with rfl | h2
        · left
          rfl
        · exact ih (fun u hu => h u (List.mem_cons_of_mem w hu)) c h2

theorem munge_joinSpL (ws : List (List Char))
    (h : ∀ w ∈ ws, ∀ c ∈ w, pyIsSpace c = false) :
    mungeWhitespace (joinSpL ws) = joinSpL ws := by
  have hchars := joinSpL_chars ws h
  have hnotab : ∀ c ∈ joinSpL ws, c ≠ Char.ofNat 9 := by
    intro c hc
    rcases hchars c hc with rfl | hp
    · decide
    · intro hct
      rw [hct] at hp
      exact absurd hp (by decide)
  simp only [mungeWhitespace, expandtabs_id (joinSpL ws) hnotab 0]
  have hid : ∀ c ∈ joinSpL ws, (if twWS c then ' ' else c) = c := by
    intro c hc
    rcases hchars c hc with rfl | hp
    · split <;> rfl
    · rw [if_neg (by simp [twWS_false_of_word c hp])]
  calc (joinSpL ws).map (fun c => if twWS c then ' ' else c)
      = (joinSpL ws).map id := List.map_congr_left (fun a ha => hid a ha)
    _ = joinSpL ws := List.map_id _

theorem strMk_append (a b : List Char) :
    String.mk a ++ String.mk b = String.mk (a ++ b) := rfl

theorem joinSpS_map_mk : ∀ (L : List (List Char)),
    joinSpS (L.map String.mk) = String.mk (joinSpL L) := by
  intro L
  induction L with
  | nil => rfl
  | cons l t ih =>
    cases t with
    | nil => rfl
    | cons l2 t2 =>
      show String.mk l ++ " " ++ joinSpS ((l2 :: t2).map String.mk) =
        String.mk (l ++ ' ' :: joinSpL (l2 :: t2))
      rw [ih]
      have hsp : (" " : String) = String.mk [' '] := rfl
      rw [hsp, strMk_append, strMk_append, List.append_assoc]
      rfl

theorem data_ne_nil (s : String) (h : s ≠ "") : s.data ≠ [] := by
  intro hd
  apply h
  have hs : s = String.mk s.data := rfl
  rw [hs, hd]

/-- C3 (amended): for a message consisting of non-empty whitespace-free and
hyphen-free words of at most 1500 characters joined by single spaces,
re-joining the chunks of `textwrap.wrap(message, 1500)` with a single space
at each wrap point reproduces the original message.  (For general messages
the claim is false: `textwrap` normalises whitespace — see the
counterexample — and additionally breaks hyphenated words at the hyphen,
e.g. the chunks of 'ab-cd' are 'ab-' and 'cd', so a wrap point inside such
a word drops no whitespace and the re-join inserts a spurious space.) -/
theorem C3_theorem (words : List String)
    (h : ∀ w ∈ words, w ≠ "" ∧ w.length ≤ 1500 ∧
      ∀ c ∈ w.data, pyIsSpace c = false ∧ c ≠ '-') :
    joinSpS (textwrap_wrap (joinSpS words) 1500) = joinSpS words := by
  cases words with
  | nil => rfl
  | cons w0 rest =>
    set ws : List (List Char) := (w0 :: rest).map String.data with hws
    have hgood : ∀ u ∈ ws, GoodWord 1500 u := by
      intro u hu
      rw [hws] at hu
      rcases List.mem_map.mp hu with ⟨s, hs, rfl⟩
      obtain ⟨h1, h2, h3⟩ := h s hs
      exact ⟨data_ne_nil s h1, h2, fun c hc => (h3 c hc).1⟩
    have hmsg : joinSpS (w0 :: rest) = String.mk (joinSpL ws) := by
      rw [hws, ← joinSpS_map_mk]
      congr 1
      rw [List.map_map]
      have hcomp : (String.mk ∘ String.data) = id := by
        funext s
        rfl
      rw [hcomp, List.map_id]
    have hdata : (String.mk (joinSpL ws)).data = joinSpL ws := rfl
    have hchars : ∀ u ∈ ws, ∀ c ∈ u, pyIsSpace c = false :=
      fun u hu => (hgood u hu).2.2
    have hwrap : textwrap_wrap (joinSpS (w0 :: rest)) 1500 =
        (wrapChunksGo 1500 true (interleave ws)).map String.mk := by
      rw [hmsg]
      simp only [textwrap_wrap, wrapList, hdata]
      rw [munge_joinSpL ws hchars, splitRuns_joinSpL 1500 ws hgood]
    obtain ⟨hne', hjoin⟩ := wrapGo_interleave 1500 (by omega) ws.length ws true
      le_rfl (by rw [hws]; simp) hgood
    rw [hwrap, joinSpS_map_mk, hjoin, ← hmsg]

/-- C3, witness for the amended theorem at a concrete two-word message. -/
theorem C3_witness :
    joinSpS (textwrap_wrap (joinSpS ["hello", "world"]) 1500) =
      joinSpS ["hello", "world"] :=
  C3_theorem ["hello", "world"] (by decide)

/-- C3, counterexample to the claim as stated: for the message `"a\nb"`
the single chunk produced is `"a b"` (the newline is normalised to a
space before splitting), so no re-joining of chunks can reproduce the
original message content. -/
theorem C3_counterexample :
    textwrap_wrap "a\nb" 1500 = ["a b"] ∧ ("a b" : String) ≠ "a\nb" := by
  constructor
  · decide
  · decide

/- ========================================================================
   § The send loop short-circuits (claim C4, counterexample)
   ======================================================================== -/

theorem splitRuns_replicate (c : Char) (n : Nat) :
    splitRuns (List.replicate (n + 1) c) = [List.replicate (n + 1) c] := by
  have hmem : ∀ x ∈ List.replicate (n + 1) c, sameSp c x = true := by
    intro x hx
    rw [List.eq_of_mem_replicate hx]
    exact sameSp_self c
  rw [List.replicate_succ, splitRuns_cons,
    takeWhile_all _ (by rw [← List.replicate_succ]; exact hmem),
    dropWhile_all _ (by rw [← List.replicate_succ]; exact hmem),
    splitRuns_nil]

theorem lastHyphenLt_replicate (b m : Nat) (c : Char) (hc : (c == '-') = false) :
    lastHyphenLt b (List.replicate m c) = none := by
  simp only [lastHyphenLt]
  rw [List.find?_eq_none]
  intro i _
  rcases Nat.lt_or_ge i m with h | h
  · rw [List.getD_eq_getElem _ _ (by simpa using h)]
    simp [hc]
  · rw [List.getD_eq_default]
    · decide
    · simpa using h

theorem wsChunk_replicate_word (m : Nat) (c : Char) (hc : pyIsSpace c = false)
    (hm : m ≠ 0) : wsChunk (List.replicate m c) = false := by
  obtain ⟨n, rfl⟩ : ∃ n, m = n + 1 := ⟨m - 1, by omega⟩
  rw [List.replicate_succ]
  simp [wsChunk, hc]

theorem wrap_replicate_a :
    wrapList 1500 (List.replicate 3000 'a') =
      [List.replicate 1500 'a', List.replicate 1500 'a'] := by
  have h1 : mungeWhitespace (List.replicate 3000 'a') = List.replicate 3000 'a' := by
    simp only [mungeWhitespace]
    rw [expandtabs_id _ (fun c hc => by rw [List.eq_of_mem_replicate hc]; decide) 0]
    rw [List.map_replicate, if_neg (by decide)]
  have h2 : splitRuns (List.replicate 3000 'a') = [List.replicate 3000 'a'] := by
    have h3000 : (3000 : Nat) = 2999 + 1 := rfl
    rw [h3000, splitRuns_replicate]
  simp only [wrapList, h1, h2]
  have hfl1 : fillLine 1500 0 [List.replicate 3000 'a'] =
      ([], [List.replicate 3000 'a']) := by
    apply fillLine_nofit
    simp only [List.length_replicate]
    omega
  have hlong : (1500 : Nat) < (List.replicate 3000 'a').length := by
    simp only [List.length_replicate]
    omega
  have hhl : hlwEnd 1500 0 (List.replicate 3000 'a') = 1500 := by
    have hsl : hlwSpaceLeft 1500 0 = 1500 := by
      rw [hlwSpaceLeft_eq 1500 0 (by omega)]
    simp only [hlwEnd, hsl, lastHyphenLt_replicate 1500 3000 'a' (by decide)]
    split <;> rfl
  have hfill1 : wrapStepFill 1500 [List.replicate 3000 'a'] =
      ([List.replicate 1500 'a'], [List.replicate 1500 'a']) := by
    simp only [wrapStepFill, hfl1, if_pos hlong]
    rw [sumLen_nil, hhl, List.take_replicate, List.drop_replicate, List.nil_append,
      show min 1500 3000 = 1500 from rfl, show (3000 - 1500 : Nat) = 1500 from rfl]
  have hwsf : wsChunk (List.replicate 1500 'a') = false :=
    wsChunk_replicate_word 1500 'a' (by decide) (by omega)
  have hdt : dropTrailWs [List.replicate 1500 'a'] = [List.replicate 1500 'a'] := by
    have hgl : ([List.replicate 1500 'a'] : List (List Char)).getLast? =
        some (List.replicate 1500 'a') := rfl
    simp only [dropTrailWs, hgl, hwsf]
    rw [if_neg Bool.false_ne_true]
  have hstep1 : wrapStep 1500 true [List.replicate 3000 'a'] =
      (some (List.replicate 1500 'a'), [List.replicate 1500 'a']) := by
    simp only [wrapStep]
    rw [if_neg (by simp only [Bool.not_true, Bool.false_and]; exact Bool.false_ne_true)]
    simp only [wrapStepCore, hfill1]
    rw [hdt]
    have hie : ([List.replicate 1500 'a'] : List (List Char)).isEmpty = false := rfl
    simp only [hie, Bool.false_eq_true, if_false, List.flatten_cons, List.flatten_nil,
      List.append_nil]
  have hstep2 : wrapStep 1500 false [List.replicate 1500 'a'] =
      (some (List.replicate 1500 'a'), []) := by
    simp only [wrapStep]
    rw [if_neg (by simp only [Bool.not_false, Bool.true_and, hwsf]; exact Bool.false_ne_true)]
    have hfl2 : fillLine 1500 0 [List.replicate 1500 'a'] =
        ([List.replicate 1500 'a'], []) := by
      rw [fillLine_fit 1500 0 _ [] (by simp only [List.length_replicate]; omega),
        fillLine_nil]
    have hfill2 : wrapStepFill 1500 [List.replicate 1500 'a'] =
        ([List.replicate 1500 'a'], []) := by
      simp only [wrapStepFill, hfl2]
    simp only [wrapStepCore, hfill2]
    rw [hdt]
    have hie : ([List.replicate 1500 'a'] : List (List Char)).isEmpty = false := rfl
    simp only [hie, Bool.false_eq_true, if_false, List.flatten_cons, List.flatten_nil,
      List.append_nil]
  rw [wrapGo_step, hstep1]
  dsimp only
  rw [wrapGo_step, hstep2]
  dsimp only
  rw [wrapGo_nil]

/-- C4, counterexample to the claim as stated: a 3000-character message
wraps into two chunks; with a first send that raises, only the first chunk
is ever passed to the messaging client — the loop aborts via the exception,
so the remaining chunk is *not* attempted and the error is captured by the
`except` around the loop, not after completing it. -/
theorem C4_counterexample :
    (textwrap_wrap (String.mk (List.replicate 3000 'a')) 1500).length = 2 ∧
    (send_whatsapp (fun i => if i = 0 then some "boom" else none)
        (String.mk (List.replicate 3000 'a'))).2 =
      [String.mk (List.replicate 1500 'a')] := by
  have hwrap : textwrap_wrap (String.mk (List.replicate 3000 'a')) 1500 =
      [String.mk (List.replicate 1500 'a'), String.mk (List.replicate 1500 'a')] := by
    have hdata : (String.mk (List.replicate 3000 'a')).data =
        List.replicate 3000 'a' := rfl
    simp only [textwrap_wrap, hdata, wrap_replicate_a]
    rfl
  constructor
  · rw [hwrap]
    rfl
  · simp only [send_whatsapp, hwrap]
    rfl

/- ========================================================================
   § PresentationLayer: app.py lines 106-173 (claim C8)
   ======================================================================== -/

/-- Observable actions of one submit-handler run: the spinner block
(`with st.spinner`, the Generating state), the HTTP request of each place
lookup, the language-model completion request, each Twilio send, and the
Streamlit render/banner calls. -/
inductive Effect where
  | spinner
  | placesQuery (query : String)
  | llmInvoke
  | twilioSend (body : String)
  | render (text : String)
  | successBanner (text : String)
  | errorBanner (text : String)
deriving DecidableEq

/-- The external world of one submission: the places-API response for each
query string, the language-model reply (the prompt construction of
`generate_itinerary` is not modelled — no claim concerns it; the reply is
the opaque itinerary text), the per-send outcome of the Twilio client, and
Python's rendering of a rating value in an f-string (`repr` of a float is
not modelled; `ratingRepr` stands for it). -/
structure Env where
  placesResults : String → List RawPlace
  llmResponse : String
  sendOutcome : Nat → Option String
  ratingRepr : Rating → String

/-- `app.py` lines 106-111 (`format_places`). -/
def format_places (ratingRepr : Rating → String) (title : String)
    (places : List Place) : String :=
  places.foldl
    (fun formatted p =>
      formatted ++ "- **" ++ p.name ++ "** (⭐ " ++ ratingRepr p.rating ++
        ") [Google Maps](" ++ p.maps_url ++ ")\n  - " ++ p.address ++ "\n")
    ("### " ++ title ++ "\n")

/-- The `st.markdown` line rendered for each place (`app.py` lines
151, 155, 159). -/
def renderPlaceLine (ratingRepr : Rating → String) (p : Place) : String :=
  "**" ++ p.name ++ "** (⭐ " ++ ratingRepr p.rating ++ ") [Google Maps](" ++
    p.maps_url ++ ")\n📍 " ++ p.address ++ "\n"

/-- The submit handler, `app.py` lines 136-173: the body of
`if st.sidebar.button("Generate Travel Plan"):`.  `if destination:` is
Python truthiness of a string (non-empty).  Returns the ordered effect
trace of the run. -/
def submitApp (env : Env) (destination : String) : List Effect :=
  if destination ≠ "" then
    let hotels := get_places (env.placesResults ("hotels in " ++ destination))
      destination "hotels" 5
    let restaurants := get_places
      (env.placesResults ("restaurants in " ++ destination))
      destination "restaurants" 5
    let attractions := get_places
      (env.placesResults ("tourist attractions in " ++ destination))
      destination "tourist attractions" 5
    let itinerary := env.llmResponse
    let message := "Your AI Travel Plan for " ++ destination ++ ":\n\n" ++
      itinerary ++ "\n\n" ++
      format_places env.ratingRepr "Hotels" hotels ++ "\n" ++
      format_places env.ratingRepr "Restaurants" restaurants ++ "\n" ++
      format_places env.ratingRepr "Attractions" attractions
    let sw := send_whatsapp env.sendOutcome message
    [Effect.spinner,
      Effect.placesQuery ("hotels in " ++ destination),
      Effect.placesQuery ("restaurants in " ++ destination),
      Effect.placesQuery ("tourist attractions in " ++ destination),
      Effect.llmInvoke,
      Effect.render "📅 AI-Generated Travel Plan",
      Effect.render itinerary,
      Effect.render "🏨 Recommended Hotels"] ++
    hotels.map (fun h => Effect.render (renderPlaceLine env.ratingRepr h)) ++
    [Effect.render "🍽️ Recommended Restaurants"] ++
    restaurants.map (fun r => Effect.render (renderPlaceLine env.ratingRepr r)) ++
    [Effect.render "🌍 Must-See Attractions"] ++
    attractions.map (fun a => Effect.render (renderPlaceLine env.ratingRepr a)) ++
    sw.2.map Effect.twilioSend ++
    [match sw.1 with
      | Sum.inl _ =>
        Effect.successBanner "📲 Full travel plan sent to your WhatsApp!"
      | Sum.inr e =>
        Effect.errorBanner ("Failed to send WhatsApp message: " ++ e)]
  else
    [Effect.errorBanner "Please enter a destination."]

/-- C8: submitting the form with an empty destination shows the validation
message only: the spinner block (the Generating state) is never entered —
the handler stays Idle — and the trace contains no places query, no
language-model completion and no message dispatch. -/
theorem C8_theorem (env : Env) :
    submitApp env "" = [Effect.errorBanner "Please enter a destination."] ∧
    ∀ e ∈ submitApp env "",
      e ≠ Effect.spinner ∧
      (∀ q, e ≠ Effect.placesQuery q) ∧
      e ≠ Effect.llmInvoke ∧
      (∀ b, e ≠ Effect.twilioSend b) := by
  have h : submitApp env "" = [Effect.errorBanner "Please enter a destination."] := by
    simp [submitApp]
  refine ⟨h, ?_⟩
  intro e he
  rw [h] at he
  have he' := List.mem_singleton.mp he
  subst he'
  refine ⟨by simp, fun q => by simp, by simp, fun b => by simp⟩
